import Mathlib

/-!
Verification of the numerical core of a planar linear ODE phase-portrait tool
(services/odeSolver.ts): a fixed-step fourth-order Runge-Kutta trajectory
integrator (`solveODE`) with a ±20 divergence cutoff, and an equilibrium
classifier (`analyzeMatrix`) over 2×2 real matrices.  The code is shallowly
embedded with exact ordered-field arithmetic (`ℚ` / `ℝ`) in place of IEEE
doubles; `Option` models the nullable eigenvector field.
-/

/-- The `Matrix2x2` record of types.ts: the matrix [[a, b], [c, d]]. -/
structure Matrix2x2 (α : Type) where
  a : α
  b : α
  c : α
  d : α
  deriving DecidableEq

/-- The `Point` record of types.ts. -/
structure Point (α : Type) where
  x : α
  y : α
  deriving DecidableEq

/-- The `ComplexNumber` record of types.ts. -/
structure ComplexNumber (α : Type) where
  re : α
  im : α
  deriving DecidableEq

/-- The `ComplexVector` record of types.ts. -/
structure ComplexVector (α : Type) where
  x : ComplexNumber α
  y : ComplexNumber α
  deriving DecidableEq

/-- The `EquilibriumAnalysis` record of types.ts; the nullable
`eigenvectors` field becomes an `Option`. -/
structure EquilibriumAnalysis (α : Type) where
  trace : α
  determinant : α
  discriminant : α
  eigenvalues : ComplexNumber α × ComplexNumber α
  eigenvectors : Option (ComplexVector α × ComplexVector α)
  classification : String
  stability : String

variable {α : Type} [LinearOrderedField α]

/-- The local vector field `f` of `solveODE`:
f(p) = (a·p.x + b·p.y, c·p.x + d·p.y). -/
def fField (m : Matrix2x2 α) (p : Point α) : Point α :=
  ⟨m.a * p.x + m.b * p.y, m.c * p.x + m.d * p.y⟩

/-- The body of the `solveODE` loop: one classic 4-stage Runge-Kutta step of
size `h` from `current`, with `f` evaluated exactly four times (k1 … k4). -/
def rk4Step (m : Matrix2x2 α) (h : α) (current : Point α) : Point α :=
  let k1 := fField m current
  let k2 := fField m ⟨current.x + h / 2 * k1.x, current.y + h / 2 * k1.y⟩
  let k3 := fField m ⟨current.x + h / 2 * k2.x, current.y + h / 2 * k2.y⟩
  let k4 := fField m ⟨current.x + h * k3.x, current.y + h * k3.y⟩
  ⟨current.x + h / 6 * (k1.x + 2 * k2.x + 2 * k3.x + k4.x),
   current.y + h / 6 * (k1.y + 2 * k2.y + 2 * k3.y + k4.y)⟩

/-- The `for` loop of `solveODE`: up to `n` further steps from `current`,
returning the points pushed after `current`.  After each computed `next` the
divergence cutoff |x| > 20 ∨ |y| > 20 is tested; on cutoff the loop breaks
and `next` is not appended. -/
def solveLoop (m : Matrix2x2 α) (h : α) : Nat → Point α → List (Point α)
  | 0, _ => []
  | n + 1, current =>
    let next := rk4Step m h current
    if 20 < |next.x| ∨ 20 < |next.y| then []
    else next :: solveLoop m h n next

/-- Function `solveODE` of services/odeSolver.ts: the trajectory starts at `initial`
(the array is initialised to [initial]) and appends Runge-Kutta steps of
size h = dt·(forward ? 1 : −1). -/
def solveODE (m : Matrix2x2 α) (initial : Point α) (steps : Nat) (dt : α)
    (forward : Bool) : List (Point α) :=
  let h := dt * (if forward then 1 else -1)
  initial :: solveLoop m h steps initial

theorem solveLoop_chain (m : Matrix2x2 α) (h : α) (n : Nat) (current : Point α) :
    List.Chain (fun p q => q = rk4Step m h p) current (solveLoop m h n current) := by
  induction n generalizing current with
  | zero => exact List.Chain.nil
  | succ n ih =>
    rw [solveLoop]
    show List.Chain _ current
      (if 20 < |(rk4Step m h current).x| ∨ 20 < |(rk4Step m h current).y| then []
       else rk4Step m h current :: solveLoop m h n (rk4Step m h current))
    split
    · exact List.Chain.nil
    · exact List.Chain.cons rfl (ih _)

theorem solveODE_eq_cons (m : Matrix2x2 α) (p0 : Point α) (steps : Nat) (dt : α)
    (fwd : Bool) :
    solveODE m p0 steps dt fwd =
      p0 :: solveLoop m (if fwd then dt else -dt) steps p0 := by
  cases fwd <;> simp [solveODE]

/-- Claim C2: every successive point of the returned trajectory is obtained
from the previous one by the classic 4-stage Runge-Kutta step of size
h = dt when forward and h = −dt otherwise (the step `rk4Step`, whose body
evaluates the field `fField` exactly four times: k1, k2, k3, k4). -/
theorem c2_rk4_chain (m : Matrix2x2 α) (p0 : Point α) (steps : Nat) (dt : α)
    (fwd : Bool) (hdt : 0 < dt) :
    List.Chain' (fun p q => q = rk4Step m (if fwd then dt else -dt) p)
      (solveODE m p0 steps dt fwd) := by
  rw [solveODE_eq_cons]
  show List.Chain _ p0 (solveLoop m (if fwd then dt else -dt) steps p0)
  exact solveLoop_chain m _ steps p0

/-- Witness for C2: a concrete two-step forward run over ℚ with dt = 1/2. -/
theorem c2_rk4_chain_witness :
    (0 : ℚ) < 1 / 2 ∧
      List.Chain' (fun p q => q = rk4Step (⟨0, 1, 0, 0⟩ : Matrix2x2 ℚ)
          (if true then (1 / 2 : ℚ) else -(1 / 2)) p)
        (solveODE (⟨0, 1, 0, 0⟩ : Matrix2x2 ℚ) ⟨1, 2⟩ 2 (1 / 2) true) :=
  ⟨by norm_num, c2_rk4_chain ⟨0, 1, 0, 0⟩ ⟨1, 2⟩ 2 (1 / 2) true (by norm_num)⟩

theorem solveLoop_succ (m : Matrix2x2 α) (h : α) (n : Nat) (current : Point α) :
    solveLoop m h (n + 1) current =
      if 20 < |(rk4Step m h current).x| ∨ 20 < |(rk4Step m h current).y| then []
      else rk4Step m h current :: solveLoop m h n (rk4Step m h current) := by
  rw [solveLoop]

theorem solveLoop_length_le (m : Matrix2x2 α) (h : α) (n : Nat) (current : Point α) :
    (solveLoop m h n current).length ≤ n := by
  induction n generalizing current with
  | zero => exact Nat.le_refl 0
  | succ n ih =>
    rw [solveLoop_succ]
    split
    · exact Nat.zero_le _
    · simpa only [List.length_cons, Nat.succ_le_succ_iff] using ih _

theorem solveLoop_mem_bounds (m : Matrix2x2 α) (h : α) (n : Nat) (current : Point α) :
    ∀ p ∈ solveLoop m h n current, |p.x| ≤ 20 ∧ |p.y| ≤ 20 := by
  induction n generalizing current with
  | zero => intro p hp; simp [solveLoop] at hp
  | succ n ih =>
    intro p hp
    rw [solveLoop_succ] at hp
    split_ifs at hp with hcut
    · simp at hp
    · push_neg at hcut
      rcases List.mem_cons.mp hp with rfl | hp2
      · exact hcut
      · exact ih _ p hp2

theorem solveLoop_length_lt_of_iterate (m : Matrix2x2 α) (h : α) (n : Nat)
    (current : Point α) :
    ∀ i, 1 ≤ i → i ≤ n →
      (20 < |((rk4Step m h)^[i] current).x| ∨ 20 < |((rk4Step m h)^[i] current).y|) →
      (solveLoop m h n current).length < n := by
  induction n generalizing current with
  | zero => intro i h1 h2 _; omega
  | succ n ih =>
    intro i h1 h2 hout
    rw [solveLoop_succ]
    split_ifs with hcut
    · simp
    · have hne : i ≠ 1 := by
        rintro rfl
        rw [Function.iterate_one] at hout
        exact hcut hout
      obtain ⟨j, rfl⟩ : ∃ j, i = j + 1 := ⟨i - 1, by omega⟩
      rw [Function.iterate_succ_apply] at hout
      have hj := ih (rk4Step m h current) j (by omega) (by omega) hout
      simp only [List.length_cons]
      omega

theorem solveLoop_cutoff_of_short (m : Matrix2x2 α) (h : α) (n : Nat)
    (current : Point α) :
    (solveLoop m h n current).length < n →
      20 < |(rk4Step m h ((solveLoop m h n current).getLastD current)).x| ∨
      20 < |(rk4Step m h ((solveLoop m h n current).getLastD current)).y| := by
  induction n generalizing current with
  | zero => intro hlt; omega
  | succ n ih =>
    intro hlt
    rw [solveLoop_succ] at hlt ⊢
    split_ifs at hlt ⊢ with hcut
    · simpa using hcut
    · rw [List.getLastD_cons]
      simp only [List.length_cons] at hlt
      exact ih (rk4Step m h current) (by omega)

/-- Claim C5: the divergence cutoff.  The returned sequence never exceeds
steps+1 points; whenever some Runge-Kutta iterate within the step budget
leaves the ±20 box, the returned length is strictly less than steps+1; and
whenever the run stops early, the step computed from the last returned point
is out of the ±20 box (it was the point tested and not appended). -/
theorem c5_divergence_cutoff (m : Matrix2x2 α) (p0 : Point α) (steps : Nat)
    (dt : α) (fwd : Bool) :
    (solveODE m p0 steps dt fwd).length ≤ steps + 1 ∧
    (∀ i, 1 ≤ i → i ≤ steps →
      (20 < |((rk4Step m (if fwd then dt else -dt))^[i] p0).x| ∨
       20 < |((rk4Step m (if fwd then dt else -dt))^[i] p0).y|) →
      (solveODE m p0 steps dt fwd).length < steps + 1) ∧
    ((solveODE m p0 steps dt fwd).length < steps + 1 →
      20 < |(rk4Step m (if fwd then dt else -dt)
              ((solveODE m p0 steps dt fwd).getLastD p0)).x| ∨
      20 < |(rk4Step m (if fwd then dt else -dt)
              ((solveODE m p0 steps dt fwd).getLastD p0)).y|) := by
  rw [solveODE_eq_cons]
  refine ⟨?_, ?_, ?_⟩
  · simpa only [List.length_cons, Nat.succ_le_succ_iff] using
      solveLoop_length_le m (if fwd then dt else -dt) steps p0
  · intro i h1 h2 hout
    have := solveLoop_length_lt_of_iterate m (if fwd then dt else -dt) steps p0
      i h1 h2 hout
    simp only [List.length_cons]
    omega
  · intro hlt
    simp only [List.length_cons] at hlt
    rw [List.getLastD_cons]
    exact solveLoop_cutoff_of_short m (if fwd then dt else -dt) steps p0 (by omega)

/-- Witness for C5: over ℚ, for M = [[1,0],[0,0]] from (19,0) with dt = 1 the
very first Runge-Kutta step lands at x = 1235/24 > 20, so the run returns
fewer than steps+1 = 4 points and the step from its last point is the
out-of-box one. -/
theorem c5_divergence_cutoff_witness :
    (1 ≤ 1 ∧ 1 ≤ 3 ∧
      (20 < |((rk4Step (⟨1, 0, 0, 0⟩ : Matrix2x2 ℚ)
                (if true then (1 : ℚ) else -1))^[1] (⟨19, 0⟩ : Point ℚ)).x| ∨
       20 < |((rk4Step (⟨1, 0, 0, 0⟩ : Matrix2x2 ℚ)
                (if true then (1 : ℚ) else -1))^[1] (⟨19, 0⟩ : Point ℚ)).y|)) ∧
    (solveODE (⟨1, 0, 0, 0⟩ : Matrix2x2 ℚ) ⟨19, 0⟩ 3 1 true).length < 3 + 1 ∧
    (20 < |(rk4Step (⟨1, 0, 0, 0⟩ : Matrix2x2 ℚ) (if true then (1 : ℚ) else -1)
            ((solveODE (⟨1, 0, 0, 0⟩ : Matrix2x2 ℚ) ⟨19, 0⟩ 3 1 true).getLastD
              ⟨19, 0⟩)).x| ∨
     20 < |(rk4Step (⟨1, 0, 0, 0⟩ : Matrix2x2 ℚ) (if true then (1 : ℚ) else -1)
            ((solveODE (⟨1, 0, 0, 0⟩ : Matrix2x2 ℚ) ⟨19, 0⟩ 3 1 true).getLastD
              ⟨19, 0⟩)).y|) := by
  have hout :
      20 < |((rk4Step (⟨1, 0, 0, 0⟩ : Matrix2x2 ℚ)
              (if true then (1 : ℚ) else -1))^[1] (⟨19, 0⟩ : Point ℚ)).x| ∨
      20 < |((rk4Step (⟨1, 0, 0, 0⟩ : Matrix2x2 ℚ)
              (if true then (1 : ℚ) else -1))^[1] (⟨19, 0⟩ : Point ℚ)).y| := by
    left
    rw [Function.iterate_one]
    have : rk4Step (⟨1, 0, 0, 0⟩ : Matrix2x2 ℚ) (if true then (1 : ℚ) else -1)
        ⟨19, 0⟩ = ⟨1235 / 24, 0⟩ := by norm_num [rk4Step, fField]
    rw [this]
    rw [show |(1235 / 24 : ℚ)| = 1235 / 24 from abs_of_nonneg (by norm_num)]
    norm_num
  have T := c5_divergence_cutoff (⟨1, 0, 0, 0⟩ : Matrix2x2 ℚ) ⟨19, 0⟩ 3 1 true
  have hlen := T.2.1 1 le_rfl (by norm_num) hout
  exact ⟨⟨le_rfl, by norm_num, hout⟩, hlen, T.2.2 hlen⟩

/-- Claim C10: every returned point after index 0 lies in the ±20 box, while
the initial point is never tested against the cutoff: it is returned at
index 0 even when out of the box, and integration can still append further
points when the first computed step lands back inside (concretely for
M = [[-1,0],[0,0]] from (21,0) the next point is (63/8, 0)). -/
theorem c10_tail_bounded (m : Matrix2x2 α) (p0 : Point α) (steps : Nat)
    (dt : α) (fwd : Bool) :
    (∀ p ∈ (solveODE m p0 steps dt fwd).tail, |p.x| ≤ 20 ∧ |p.y| ≤ 20) ∧
    (solveODE m p0 steps dt fwd).head? = some p0 ∧
    solveODE (⟨-1, 0, 0, 0⟩ : Matrix2x2 α) ⟨21, 0⟩ 1 1 true =
      [⟨21, 0⟩, ⟨63 / 8, 0⟩] := by
  refine ⟨?_, ?_, ?_⟩
  · rw [solveODE_eq_cons]
    simpa only [List.tail_cons] using
      solveLoop_mem_bounds m (if fwd then dt else -dt) steps p0
  · rw [solveODE_eq_cons]; rfl
  · rw [solveODE_eq_cons, solveLoop_succ]
    have hstep : rk4Step (⟨-1, 0, 0, 0⟩ : Matrix2x2 α)
        (if true then (1 : α) else -1) ⟨21, 0⟩ = ⟨63 / 8, 0⟩ := by
      norm_num [rk4Step, fField]
    rw [hstep]
    rw [if_neg]
    · rfl
    · push_neg
      constructor
      · rw [show |(63 / 8 : α)| = 63 / 8 from abs_of_nonneg (by norm_num)]
        norm_num
      · simp

/-- Witness for C10: the in-box point (63/8, 0) appended after the
out-of-box initial point (21, 0) is in the tail and satisfies the bound. -/
theorem c10_tail_bounded_witness :
    (⟨63 / 8, 0⟩ : Point ℚ) ∈
      (solveODE (⟨-1, 0, 0, 0⟩ : Matrix2x2 ℚ) ⟨21, 0⟩ 1 1 true).tail ∧
    |(63 / 8 : ℚ)| ≤ 20 ∧ |(0 : ℚ)| ≤ 20 := by
  have T := c10_tail_bounded (⟨-1, 0, 0, 0⟩ : Matrix2x2 ℚ) ⟨21, 0⟩ 1 1 true
  have hmem : (⟨63 / 8, 0⟩ : Point ℚ) ∈
      (solveODE (⟨-1, 0, 0, 0⟩ : Matrix2x2 ℚ) ⟨21, 0⟩ 1 1 true).tail := by
    rw [T.2.2]
    simp
  have h2 := T.1 ⟨63 / 8, 0⟩ hmem
  exact ⟨hmem, h2⟩

/-- Claim C8: the returned sequence always begins with `initial` at index 0,
and with steps = 0 it is exactly the one-element sequence [initial], for
either direction. -/
theorem c8_initial_first (m : Matrix2x2 α) (p0 : Point α) (steps : Nat) (dt : α)
    (fwd : Bool) :
    (solveODE m p0 steps dt fwd).head? = some p0 ∧
      solveODE m p0 0 dt fwd = [p0] := by
  constructor
  · rw [solveODE_eq_cons]; rfl
  · rw [solveODE_eq_cons]; rfl

/-- The trace tr = a + d computed by `analyzeMatrix`. -/
def traceM (m : Matrix2x2 α) : α := m.a + m.d

/-- The determinant det = a·d − b·c computed by `analyzeMatrix`. -/
def detM (m : Matrix2x2 α) : α := m.a * m.d - m.b * m.c

/-- The discriminant disc = tr·tr − 4·det computed by `analyzeMatrix`. -/
def discM (m : Matrix2x2 α) : α := traceM m * traceM m - 4 * detM m

/-- Function `getEigenvector` of services/odeSolver.ts: solves (A − λI)v = 0 by the
four-branch row selection with tolerance 1e-9. -/
noncomputable def getEigenvector (m : Matrix2x2 ℝ) (ev : ℝ) : ComplexVector ℝ :=
  let row1a := m.a - ev
  let row1b := m.b
  if |row1b| > 1e-9 then
    let mag := Real.sqrt (row1b * row1b + row1a * row1a)
    ⟨⟨-row1b / mag, 0⟩, ⟨row1a / mag, 0⟩⟩
  else if |row1a| > 1e-9 then
    ⟨⟨0, 0⟩, ⟨1, 0⟩⟩
  else
    let row2c := m.c
    let row2d := m.d - ev
    if |row2c| > 1e-9 then
      let xVal := -row2d / row2c
      let mag := Real.sqrt (xVal * xVal + 1)
      ⟨⟨xVal / mag, 0⟩, ⟨1 / mag, 0⟩⟩
    else
      ⟨⟨1, 0⟩, ⟨0, 0⟩⟩

/-- Function `analyzeMatrix` of services/odeSolver.ts.  The source fills eigenvalues
and eigenvectors inside one disc ≥ 0 test; here the same test appears once
per field with identical branches.  The classification chain mirrors the
source's if/else chain, whose branches overwrite the initial placeholder
values on every path. -/
noncomputable def analyzeMatrix (m : Matrix2x2 ℝ) : EquilibriumAnalysis ℝ :=
  let tr := traceM m
  let det := detM m
  let disc := discM m
  let eigenvalues : ComplexNumber ℝ × ComplexNumber ℝ :=
    if disc ≥ 0 then
      (⟨(tr + Real.sqrt disc) / 2, 0⟩, ⟨(tr - Real.sqrt disc) / 2, 0⟩)
    else
      (⟨tr / 2, Real.sqrt (-disc) / 2⟩, ⟨tr / 2, -(Real.sqrt (-disc) / 2)⟩)
  let eigenvectors : Option (ComplexVector ℝ × ComplexVector ℝ) :=
    if disc ≥ 0 then
      some (getEigenvector m ((tr + Real.sqrt disc) / 2),
            getEigenvector m ((tr - Real.sqrt disc) / 2))
    else
      none
  let cs : String × String :=
    if det < 0 then ("Saddle Point", "Unstable")
    else if det > 0 then
      if disc > 0 then
        ("Node", if tr > 0 then "Unstable (Source)" else "Stable (Sink)")
      else if disc < 0 then
        if |tr| < 1e-9 then ("Center", "Neutrally Stable")
        else ("Spiral Point",
              if tr > 0 then "Unstable (Spiral Source)" else "Stable (Spiral Sink)")
      else
        ("Proper/Improper Node", if tr > 0 then "Unstable" else "Stable")
    else ("Degenerate (Non-isolated)", "Marginally Stable")
  { trace := tr
    determinant := det
    discriminant := disc
    eigenvalues := eigenvalues
    eigenvectors := eigenvectors
    classification := cs.1
    stability := cs.2 }

/-- Complex addition, used to state the eigenvalue-sum invariant. -/
def cadd (z w : ComplexNumber α) : ComplexNumber α :=
  ⟨z.re + w.re, z.im + w.im⟩

/-- Complex multiplication, used to state the eigenvalue-product invariant. -/
def cmul (z w : ComplexNumber α) : ComplexNumber α :=
  ⟨z.re * w.re - z.im * w.im, z.re * w.im + z.im * w.re⟩

theorem analyzeMatrix_trace (m : Matrix2x2 ℝ) :
    (analyzeMatrix m).trace = traceM m := rfl

theorem analyzeMatrix_determinant (m : Matrix2x2 ℝ) :
    (analyzeMatrix m).determinant = detM m := rfl

theorem analyzeMatrix_discriminant (m : Matrix2x2 ℝ) :
    (analyzeMatrix m).discriminant = discM m := rfl

theorem analyzeMatrix_eigenvalues_of_nonneg (m : Matrix2x2 ℝ)
    (hd : 0 ≤ discM m) :
    (analyzeMatrix m).eigenvalues =
      (⟨(traceM m + Real.sqrt (discM m)) / 2, 0⟩,
       ⟨(traceM m - Real.sqrt (discM m)) / 2, 0⟩) := by
  simp only [analyzeMatrix]
  rw [if_pos hd]

theorem analyzeMatrix_eigenvalues_of_neg (m : Matrix2x2 ℝ)
    (hd : discM m < 0) :
    (analyzeMatrix m).eigenvalues =
      (⟨traceM m / 2, Real.sqrt (-discM m) / 2⟩,
       ⟨traceM m / 2, -(Real.sqrt (-discM m) / 2)⟩) := by
  simp only [analyzeMatrix]
  rw [if_neg (not_le.mpr hd)]

theorem analyzeMatrix_eigenvectors_of_nonneg (m : Matrix2x2 ℝ)
    (hd : 0 ≤ discM m) :
    (analyzeMatrix m).eigenvectors =
      some (getEigenvector m ((traceM m + Real.sqrt (discM m)) / 2),
            getEigenvector m ((traceM m - Real.sqrt (discM m)) / 2)) := by
  simp only [analyzeMatrix]
  rw [if_pos hd]

theorem analyzeMatrix_eigenvectors_of_neg (m : Matrix2x2 ℝ)
    (hd : discM m < 0) :
    (analyzeMatrix m).eigenvectors = none := by
  simp only [analyzeMatrix]
  rw [if_neg (not_le.mpr hd)]

/-- Claim C6: the eigenvectors field of the returned record is present
(not the absent marker `none`) exactly when the discriminant is ≥ 0, and is
`none` when the discriminant is negative. -/
theorem c6_eigenvectors_present_iff (m : Matrix2x2 ℝ) :
    ((analyzeMatrix m).eigenvectors ≠ none ↔ 0 ≤ discM m) ∧
    (discM m < 0 → (analyzeMatrix m).eigenvectors = none) := by
  rcases le_or_lt 0 (discM m) with hd | hd
  · constructor
    · rw [analyzeMatrix_eigenvectors_of_nonneg m hd]
      simp [hd]
    · intro hlt
      exact absurd hd (not_le.mpr hlt)
  · constructor
    · rw [analyzeMatrix_eigenvectors_of_neg m hd]
      simp [not_le.mpr hd]
    · intro _
      exact analyzeMatrix_eigenvectors_of_neg m hd
/-- Witness for C6: present for the saddle [[1,0],[0,-1]] (disc = 4 ≥ 0),
absent for the spiral [[-1,-2],[2,-1]] (disc = −16 < 0). -/
theorem c6_eigenvectors_present_iff_witness :
    (analyzeMatrix ⟨1, 0, 0, -1⟩).eigenvectors ≠ none ∧
    discM (⟨-1, -2, 2, -1⟩ : Matrix2x2 ℝ) < 0 ∧
    (analyzeMatrix ⟨-1, -2, 2, -1⟩).eigenvectors = none := by
  have h1 := (c6_eigenvectors_present_iff ⟨1, 0, 0, -1⟩).1.mpr
    (by norm_num [discM, traceM, detM])
  have hd : discM (⟨-1, -2, 2, -1⟩ : Matrix2x2 ℝ) < 0 := by
    norm_num [discM, traceM, detM]
  exact ⟨h1, hd, (c6_eigenvectors_present_iff ⟨-1, -2, 2, -1⟩).2 hd⟩

/-- Claim C7: the record satisfies trace = a+d, determinant = ad − bc and
discriminant = trace² − 4·determinant exactly, and the two returned
eigenvalues sum to the trace and multiply to the determinant within 1e-6
(they do so exactly in real arithmetic). -/
theorem c7_invariants (m : Matrix2x2 ℝ) :
    (analyzeMatrix m).trace = m.a + m.d ∧
    (analyzeMatrix m).determinant = m.a * m.d - m.b * m.c ∧
    (analyzeMatrix m).discriminant =
      (analyzeMatrix m).trace ^ 2 - 4 * (analyzeMatrix m).determinant ∧
    |(cadd (analyzeMatrix m).eigenvalues.1 (analyzeMatrix m).eigenvalues.2).re -
      (analyzeMatrix m).trace| ≤ 1e-6 ∧
    |(cadd (analyzeMatrix m).eigenvalues.1 (analyzeMatrix m).eigenvalues.2).im| ≤
      1e-6 ∧
    |(cmul (analyzeMatrix m).eigenvalues.1 (analyzeMatrix m).eigenvalues.2).re -
      (analyzeMatrix m).determinant| ≤ 1e-6 ∧
    |(cmul (analyzeMatrix m).eigenvalues.1 (analyzeMatrix m).eigenvalues.2).im| ≤
      1e-6 := by
  refine ⟨rfl, rfl, ?_, ?_⟩
  · rw [analyzeMatrix_trace, analyzeMatrix_determinant, analyzeMatrix_discriminant,
      discM]
    ring
  · have key :
        cadd (analyzeMatrix m).eigenvalues.1 (analyzeMatrix m).eigenvalues.2 =
          ⟨traceM m, 0⟩ ∧
        cmul (analyzeMatrix m).eigenvalues.1 (analyzeMatrix m).eigenvalues.2 =
          ⟨detM m, 0⟩ := by
      have hdisc : discM m = traceM m * traceM m - 4 * detM m := rfl
      rcases le_or_lt 0 (discM m) with hd | hd
      · rw [analyzeMatrix_eigenvalues_of_nonneg m hd]
        have hs : Real.sqrt (discM m) * Real.sqrt (discM m) = discM m :=
          Real.mul_self_sqrt hd
        constructor
        · simp only [cadd]
          congr 1 <;> ring
        · simp only [cmul]
          congr 1
          · linear_combination (-1 / 4 : ℝ) * hs + (-1 / 4 : ℝ) * hdisc
          · ring
      · rw [analyzeMatrix_eigenvalues_of_neg m hd]
        have hs : Real.sqrt (-discM m) * Real.sqrt (-discM m) = -discM m :=
          Real.mul_self_sqrt (by linarith)
        constructor
        · simp only [cadd]
          congr 1 <;> ring
        · simp only [cmul]
          congr 1
          · linear_combination (1 / 4 : ℝ) * hs + (-1 / 4 : ℝ) * hdisc
          · ring
    rw [key.1, key.2, analyzeMatrix_trace, analyzeMatrix_determinant]
    norm_num

theorem classification_saddle (m : Matrix2x2 ℝ) (h : detM m < 0) :
    (analyzeMatrix m).classification = "Saddle Point" ∧
    (analyzeMatrix m).stability = "Unstable" := by
  simp only [analyzeMatrix]
  split_ifs <;> first | exact ⟨rfl, rfl⟩ | linarith

theorem classification_node (m : Matrix2x2 ℝ) (h1 : detM m > 0)
    (h2 : discM m > 0) :
    (analyzeMatrix m).classification = "Node" ∧
    (analyzeMatrix m).stability =
      (if traceM m > 0 then "Unstable (Source)" else "Stable (Sink)") := by
  simp only [analyzeMatrix]
  split_ifs <;> first | exact ⟨rfl, rfl⟩ | linarith

theorem classification_center (m : Matrix2x2 ℝ) (h1 : detM m > 0)
    (h2 : discM m < 0) (h3 : |traceM m| < 1e-9) :
    (analyzeMatrix m).classification = "Center" ∧
    (analyzeMatrix m).stability = "Neutrally Stable" := by
  simp only [analyzeMatrix]
  split_ifs <;> first | exact ⟨rfl, rfl⟩ | linarith

theorem classification_spiral (m : Matrix2x2 ℝ) (h1 : detM m > 0)
    (h2 : discM m < 0) (h3 : ¬(|traceM m| < 1e-9)) :
    (analyzeMatrix m).classification = "Spiral Point" ∧
    (analyzeMatrix m).stability =
      (if traceM m > 0 then "Unstable (Spiral Source)" else "Stable (Spiral Sink)") := by
  simp only [analyzeMatrix]
  split_ifs <;> first | exact ⟨rfl, rfl⟩ | linarith

theorem classification_improper_node (m : Matrix2x2 ℝ) (h1 : detM m > 0)
    (h2 : discM m = 0) :
    (analyzeMatrix m).classification = "Proper/Improper Node" ∧
    (analyzeMatrix m).stability = (if traceM m > 0 then "Unstable" else "Stable") := by
  simp only [analyzeMatrix]
  split_ifs <;> first | exact ⟨rfl, rfl⟩ | linarith

theorem classification_degenerate (m : Matrix2x2 ℝ) (h : detM m = 0) :
    (analyzeMatrix m).classification = "Degenerate (Non-isolated)" ∧
    (analyzeMatrix m).stability = "Marginally Stable" := by
  simp only [analyzeMatrix]
  split_ifs <;> first | exact ⟨rfl, rfl⟩ | linarith

/-- Claim C1: the ordered classification decision tree of `analyzeMatrix`,
with exact sign tests on det and disc and the 1e-9 tolerance only on the
trace test separating Center from Spiral Point. -/
theorem c1_classification_tree (m : Matrix2x2 ℝ) :
    (detM m < 0 →
      (analyzeMatrix m).classification = "Saddle Point" ∧
      (analyzeMatrix m).stability = "Unstable") ∧
    (detM m > 0 → discM m > 0 →
      (analyzeMatrix m).classification = "Node" ∧
      (analyzeMatrix m).stability =
        (if traceM m > 0 then "Unstable (Source)" else "Stable (Sink)")) ∧
    (detM m > 0 → discM m < 0 → |traceM m| < 1e-9 →
      (analyzeMatrix m).classification = "Center" ∧
      (analyzeMatrix m).stability = "Neutrally Stable") ∧
    (detM m > 0 → discM m < 0 → 1e-9 ≤ |traceM m| →
      (analyzeMatrix m).classification = "Spiral Point" ∧
      (analyzeMatrix m).stability =
        (if traceM m > 0 then "Unstable (Spiral Source)" else "Stable (Spiral Sink)")) ∧
    (detM m > 0 → discM m = 0 →
      (analyzeMatrix m).classification = "Proper/Improper Node" ∧
      (analyzeMatrix m).stability = (if traceM m > 0 then "Unstable" else "Stable")) ∧
    (detM m = 0 →
      (analyzeMatrix m).classification = "Degenerate (Non-isolated)" ∧
      (analyzeMatrix m).stability = "Marginally Stable") :=
  ⟨classification_saddle m,
   classification_node m,
   classification_center m,
   fun h1 h2 h3 => classification_spiral m h1 h2 (not_lt.mpr h3),
   classification_improper_node m,
   classification_degenerate m⟩

/-- Witness for C1: the saddle matrix [[1,0],[0,-1]] has det = −1 < 0 and is
classified "Saddle Point"/"Unstable". -/
theorem c1_classification_tree_witness :
    detM (⟨1, 0, 0, -1⟩ : Matrix2x2 ℝ) < 0 ∧
    (analyzeMatrix ⟨1, 0, 0, -1⟩).classification = "Saddle Point" ∧
    (analyzeMatrix ⟨1, 0, 0, -1⟩).stability = "Unstable" := by
  have hdet : detM (⟨1, 0, 0, -1⟩ : Matrix2x2 ℝ) < 0 := by norm_num [detM]
  have h := (c1_classification_tree ⟨1, 0, 0, -1⟩).1 hdet
  exact ⟨hdet, h.1, h.2⟩

/-- Claim C9 (amended): `analyzeMatrix` always succeeds, its classification
is one of the six named classification tags and its stability one of the
EIGHT named stability tags; the initial placeholder values "Unknown" and
"Neutral" are never returned. -/
theorem c9_all_tags (m : Matrix2x2 ℝ) :
    (analyzeMatrix m).classification ∈
      ["Saddle Point", "Node", "Center", "Spiral Point", "Proper/Improper Node",
       "Degenerate (Non-isolated)"] ∧
    (analyzeMatrix m).stability ∈
      ["Unstable", "Unstable (Source)", "Stable (Sink)", "Neutrally Stable",
       "Unstable (Spiral Source)", "Stable (Spiral Sink)", "Stable",
       "Marginally Stable"] ∧
    (analyzeMatrix m).classification ≠ "Unknown" ∧
    (analyzeMatrix m).stability ≠ "Neutral" := by
  simp only [analyzeMatrix]
  split_ifs <;> simp

/-- Witness for C9 (amended): the placeholder tags do not occur for the zero
matrix. -/
theorem c9_all_tags_witness :
    (analyzeMatrix ⟨0, 0, 0, 0⟩).classification ≠ "Unknown" ∧
    (analyzeMatrix ⟨0, 0, 0, 0⟩).stability ≠ "Neutral" :=
  ⟨(c9_all_tags ⟨0, 0, 0, 0⟩).2.2.1, (c9_all_tags ⟨0, 0, 0, 0⟩).2.2.2⟩

/-- Counterexample for C9 as stated: eight pairwise-distinct stability tags
are returned on concrete matrices, so the stability tag set has eight
members, not six. -/
theorem c9_counterexample_eight_stabilities :
    (analyzeMatrix ⟨1, 0, 0, -1⟩).stability = "Unstable" ∧
    (analyzeMatrix ⟨2, 0, 0, 1⟩).stability = "Unstable (Source)" ∧
    (analyzeMatrix ⟨-2, 0, 0, -1⟩).stability = "Stable (Sink)" ∧
    (analyzeMatrix ⟨0, -2, 2, 0⟩).stability = "Neutrally Stable" ∧
    (analyzeMatrix ⟨1, -2, 2, 1⟩).stability = "Unstable (Spiral Source)" ∧
    (analyzeMatrix ⟨-1, -2, 2, -1⟩).stability = "Stable (Spiral Sink)" ∧
    (analyzeMatrix ⟨-1, 0, 0, -1⟩).stability = "Stable" ∧
    (analyzeMatrix ⟨0, 0, 0, 0⟩).stability = "Marginally Stable" ∧
    ({"Unstable", "Unstable (Source)", "Stable (Sink)", "Neutrally Stable",
      "Unstable (Spiral Source)", "Stable (Spiral Sink)", "Stable",
      "Marginally Stable"} : Finset String).card = 8 := by
  refine ⟨?_, ?_, ?_, ?_, ?_, ?_, ?_, ?_, by decide⟩
  · exact (classification_saddle ⟨1, 0, 0, -1⟩ (by norm_num [detM])).2
  · rw [(classification_node ⟨2, 0, 0, 1⟩ (by norm_num [detM])
      (by norm_num [discM, traceM, detM])).2]
    rw [if_pos (by norm_num [traceM] : traceM (⟨2, 0, 0, 1⟩ : Matrix2x2 ℝ) > 0)]
  · rw [(classification_node ⟨-2, 0, 0, -1⟩ (by norm_num [detM])
      (by norm_num [discM, traceM, detM])).2]
    rw [if_neg (by norm_num [traceM] :
      ¬ traceM (⟨-2, 0, 0, -1⟩ : Matrix2x2 ℝ) > 0)]
  · exact (classification_center ⟨0, -2, 2, 0⟩ (by norm_num [detM])
      (by norm_num [discM, traceM, detM])
      (by rw [show |traceM (⟨0, -2, 2, 0⟩ : Matrix2x2 ℝ)| = 0 by
            norm_num [traceM]]
          norm_num)).2
  · rw [(classification_spiral ⟨1, -2, 2, 1⟩ (by norm_num [detM])
      (by norm_num [discM, traceM, detM])
      (by rw [show |traceM (⟨1, -2, 2, 1⟩ : Matrix2x2 ℝ)| = 2 by
            rw [show traceM (⟨1, -2, 2, 1⟩ : Matrix2x2 ℝ) = 2 by
              norm_num [traceM]]
            norm_num]
          norm_num)).2]
    rw [if_pos (by norm_num [traceM] : traceM (⟨1, -2, 2, 1⟩ : Matrix2x2 ℝ) > 0)]
  · rw [(classification_spiral ⟨-1, -2, 2, -1⟩ (by norm_num [detM])
      (by norm_num [discM, traceM, detM])
      (by rw [show |traceM (⟨-1, -2, 2, -1⟩ : Matrix2x2 ℝ)| = 2 by
            rw [show traceM (⟨-1, -2, 2, -1⟩ : Matrix2x2 ℝ) = -2 by
              norm_num [traceM]]
            norm_num]
          norm_num)).2]
    rw [if_neg (by norm_num [traceM] :
      ¬ traceM (⟨-1, -2, 2, -1⟩ : Matrix2x2 ℝ) > 0)]
  · rw [(classification_improper_node ⟨-1, 0, 0, -1⟩ (by norm_num [detM])
      (by norm_num [discM, traceM, detM])).2]
    rw [if_neg (by norm_num [traceM] :
      ¬ traceM (⟨-1, 0, 0, -1⟩ : Matrix2x2 ℝ) > 0)]
  · exact (classification_degenerate ⟨0, 0, 0, 0⟩ (by norm_num [detM])).2

/-- Claim C3: when disc ≥ 0 the eigenvalues are the real pair
(tr±√disc)/2 with r1 (the +√disc root) first and zero imaginary parts;
when disc < 0 they are the conjugate pair tr/2 ± i·√(−disc)/2 with the
positive-imaginary entry first. -/
theorem c3_eigenvalues_formula (m : Matrix2x2 ℝ) :
    (0 ≤ discM m →
      (analyzeMatrix m).eigenvalues =
        (⟨(traceM m + Real.sqrt (discM m)) / 2, 0⟩,
         ⟨(traceM m - Real.sqrt (discM m)) / 2, 0⟩)) ∧
    (discM m < 0 →
      (analyzeMatrix m).eigenvalues =
        (⟨traceM m / 2, Real.sqrt (-discM m) / 2⟩,
         ⟨traceM m / 2, -(Real.sqrt (-discM m) / 2)⟩) ∧
      0 < (analyzeMatrix m).eigenvalues.1.im) := by
  constructor
  · exact analyzeMatrix_eigenvalues_of_nonneg m
  · intro hd
    refine ⟨analyzeMatrix_eigenvalues_of_neg m hd, ?_⟩
    rw [analyzeMatrix_eigenvalues_of_neg m hd]
    have hs : 0 < Real.sqrt (-discM m) := Real.sqrt_pos.mpr (by linarith)
    show 0 < Real.sqrt (-discM m) / 2
    exact div_pos hs (by norm_num)

/-- Witness for C3: the saddle [[1,0],[0,-1]] (disc = 4) has eigenvalues
1 and −1; the spiral [[-1,-2],[2,-1]] (disc = −16) has eigenvalues −1±2i
with the positive-imaginary entry first. -/
theorem c3_eigenvalues_formula_witness :
    (0 : ℝ) ≤ discM (⟨1, 0, 0, -1⟩ : Matrix2x2 ℝ) ∧
    (analyzeMatrix ⟨1, 0, 0, -1⟩).eigenvalues = (⟨1, 0⟩, ⟨-1, 0⟩) ∧
    discM (⟨-1, -2, 2, -1⟩ : Matrix2x2 ℝ) < 0 ∧
    (analyzeMatrix ⟨-1, -2, 2, -1⟩).eigenvalues = (⟨-1, 2⟩, ⟨-1, -2⟩) ∧
    0 < (analyzeMatrix ⟨-1, -2, 2, -1⟩).eigenvalues.1.im := by
  have hdA : (0 : ℝ) ≤ discM (⟨1, 0, 0, -1⟩ : Matrix2x2 ℝ) := by
    norm_num [discM, traceM, detM]
  have hA := (c3_eigenvalues_formula ⟨1, 0, 0, -1⟩).1 hdA
  have hdB : discM (⟨-1, -2, 2, -1⟩ : Matrix2x2 ℝ) < 0 := by
    norm_num [discM, traceM, detM]
  have hB := (c3_eigenvalues_formula ⟨-1, -2, 2, -1⟩).2 hdB
  refine ⟨hdA, ?_, hdB, ?_, hB.2⟩
  · rw [hA]
    rw [show discM (⟨1, 0, 0, -1⟩ : Matrix2x2 ℝ) = 4 by
      norm_num [discM, traceM, detM]]
    rw [show traceM (⟨1, 0, 0, -1⟩ : Matrix2x2 ℝ) = 0 by norm_num [traceM]]
    rw [show Real.sqrt 4 = 2 by
      rw [show (4 : ℝ) = 2 ^ 2 by norm_num, Real.sqrt_sq (by norm_num : (0:ℝ) ≤ 2)]]
    norm_num
  · rw [hB.1]
    rw [show discM (⟨-1, -2, 2, -1⟩ : Matrix2x2 ℝ) = -16 by
      norm_num [discM, traceM, detM]]
    rw [show traceM (⟨-1, -2, 2, -1⟩ : Matrix2x2 ℝ) = -2 by norm_num [traceM]]
    rw [show Real.sqrt (-(-16 : ℝ)) = 4 by
      rw [show (-(-16 : ℝ)) = 4 ^ 2 by norm_num,
        Real.sqrt_sq (by norm_num : (0:ℝ) ≤ 4)]]
    norm_num

/-- The property claim C4 asserts of each returned eigenvector: real
components, Euclidean norm 1, and (M − λI)v = 0. -/
def realUnitEigenvector (m : Matrix2x2 ℝ) (lam : ℝ) (v : ComplexVector ℝ) :
    Prop :=
  v.x.im = 0 ∧ v.y.im = 0 ∧
  Real.sqrt (v.x.re ^ 2 + v.y.re ^ 2) = 1 ∧
  (m.a - lam) * v.x.re + m.b * v.y.re = 0 ∧
  m.c * v.x.re + (m.d - lam) * v.y.re = 0

/-- Claim C4 (amended): for disc ≥ 0 the record carries the two vectors
`getEigenvector` computes for r1 and r2.  Each returned eigenvector is
unconditionally a real unit vector (zero imaginary parts, Euclidean norm 1);
it additionally satisfies (M − λI)v = 0 whenever every entry that the 1e-9
tolerance tests find small on the branch actually taken — b, then a−λ, then
c, in the row-selection order — is exactly zero.  Otherwise the tolerance
can hide a nonzero residual. -/
theorem c4_amended (m : Matrix2x2 ℝ) (ev : ℝ) (hd : 0 ≤ discM m)
    (hev : ev = (traceM m + Real.sqrt (discM m)) / 2 ∨
           ev = (traceM m - Real.sqrt (discM m)) / 2) :
    (analyzeMatrix m).eigenvectors =
      some (getEigenvector m ((traceM m + Real.sqrt (discM m)) / 2),
            getEigenvector m ((traceM m - Real.sqrt (discM m)) / 2)) ∧
    (getEigenvector m ev).x.im = 0 ∧
    (getEigenvector m ev).y.im = 0 ∧
    Real.sqrt ((getEigenvector m ev).x.re ^ 2 + (getEigenvector m ev).y.re ^ 2) =
      1 ∧
    ((|m.b| ≤ 1e-9 → m.b = 0 ∧
        (|m.a - ev| ≤ 1e-9 → m.a - ev = 0 ∧ (|m.c| ≤ 1e-9 → m.c = 0))) →
      realUnitEigenvector m ev (getEigenvector m ev)) := by
  refine ⟨analyzeMatrix_eigenvectors_of_nonneg m hd, ?_⟩
  have hsq : Real.sqrt (discM m) * Real.sqrt (discM m) = discM m :=
    Real.mul_self_sqrt hd
  have hdisc : discM m = traceM m * traceM m - 4 * detM m := rfl
  have hchar0 : ev * ev - traceM m * ev + detM m = 0 := by
    rcases hev with rfl | rfl
    · linear_combination (1 / 4 : ℝ) * hsq + (1 / 4 : ℝ) * hdisc
    · linear_combination (1 / 4 : ℝ) * hsq + (1 / 4 : ℝ) * hdisc
  have hchar : ev * ev - (m.a + m.d) * ev + (m.a * m.d - m.b * m.c) = 0 := by
    simp only [traceM, detM] at hchar0
    exact hchar0
  simp only [getEigenvector, realUnitEigenvector]
  split_ifs with h1 h2 h3
  · -- |b| > 1e-9: v = (−b, a−ev) normalised; no tolerance test found an
    -- entry small, so the eigen-equation needs no extra hypothesis
    have hb0 : m.b ≠ 0 := by
      intro h0
      rw [h0, abs_zero] at h1
      norm_num at h1
    have hspos : 0 < m.b * m.b + (m.a - ev) * (m.a - ev) := by
      nlinarith [mul_self_pos.mpr hb0, mul_self_nonneg (m.a - ev)]
    have hmag : 0 < Real.sqrt (m.b * m.b + (m.a - ev) * (m.a - ev)) :=
      Real.sqrt_pos.mpr hspos
    have hmagsq : Real.sqrt (m.b * m.b + (m.a - ev) * (m.a - ev)) ^ 2 =
        m.b * m.b + (m.a - ev) * (m.a - ev) := Real.sq_sqrt hspos.le
    have hunit : Real.sqrt
        ((-m.b / Real.sqrt (m.b * m.b + (m.a - ev) * (m.a - ev))) ^ 2 +
          ((m.a - ev) / Real.sqrt (m.b * m.b + (m.a - ev) * (m.a - ev))) ^ 2) =
        1 := by
      have hsum : (-m.b / Real.sqrt (m.b * m.b + (m.a - ev) * (m.a - ev))) ^ 2 +
          ((m.a - ev) / Real.sqrt (m.b * m.b + (m.a - ev) * (m.a - ev))) ^ 2 = 1 := by
        rw [div_pow, div_pow, div_add_div_same, hmagsq]
        field_simp
        ring
      rw [hsum, Real.sqrt_one]
    have hrow1 : (m.a - ev) *
          (-m.b / Real.sqrt (m.b * m.b + (m.a - ev) * (m.a - ev))) +
        m.b * ((m.a - ev) / Real.sqrt (m.b * m.b + (m.a - ev) * (m.a - ev))) =
        0 := by
      ring
    have hrow2 : m.c * (-m.b / Real.sqrt (m.b * m.b + (m.a - ev) * (m.a - ev))) +
        (m.d - ev) *
          ((m.a - ev) / Real.sqrt (m.b * m.b + (m.a - ev) * (m.a - ev))) = 0 := by
      have hnum : m.c * (-m.b) + (m.d - ev) * (m.a - ev) = 0 := by
        linear_combination hchar
      rw [show m.c * (-m.b / Real.sqrt (m.b * m.b + (m.a - ev) * (m.a - ev))) +
          (m.d - ev) * ((m.a - ev) / Real.sqrt (m.b * m.b + (m.a - ev) * (m.a - ev))) =
          (m.c * (-m.b) + (m.d - ev) * (m.a - ev)) /
            Real.sqrt (m.b * m.b + (m.a - ev) * (m.a - ev)) from by ring,
        hnum, zero_div]
    exact ⟨rfl, rfl, hunit, fun _ => ⟨rfl, rfl, hunit, hrow1, hrow2⟩⟩
  · -- |b| ≤ 1e-9, |a−ev| > 1e-9: v = (0, 1); tested small: b
    refine ⟨rfl, rfl, by norm_num, ?_⟩
    intro hH
    have hb0 : m.b = 0 := (hH (not_lt.mp h1)).1
    have hA : m.a - ev ≠ 0 := by
      intro h0
      rw [h0, abs_zero] at h2
      norm_num at h2
    have hprod : (m.a - ev) * (m.d - ev) = 0 := by
      linear_combination hchar + m.c * hb0
    have hD : m.d - ev = 0 := by
      rcases mul_eq_zero.mp hprod with h | h
      · exact absurd h hA
      · exact h
    refine ⟨rfl, rfl, by norm_num, ?_, ?_⟩
    · rw [hb0]; ring
    · linear_combination hD
  · -- row 1 vanishes within tolerance, |c| > 1e-9: v = (−(d−ev)/c, 1)
    -- normalised; tested small: b and a−ev
    have hc0 : m.c ≠ 0 := by
      intro h0
      rw [h0, abs_zero] at h3
      norm_num at h3
    have htpos : 0 < -(m.d - ev) / m.c * (-(m.d - ev) / m.c) + 1 := by
      nlinarith [mul_self_nonneg (-(m.d - ev) / m.c)]
    have hmag : 0 < Real.sqrt (-(m.d - ev) / m.c * (-(m.d - ev) / m.c) + 1) :=
      Real.sqrt_pos.mpr htpos
    have hmagsq : Real.sqrt (-(m.d - ev) / m.c * (-(m.d - ev) / m.c) + 1) ^ 2 =
        -(m.d - ev) / m.c * (-(m.d - ev) / m.c) + 1 := Real.sq_sqrt htpos.le
    have hunit : Real.sqrt
        ((-(m.d - ev) / m.c /
            Real.sqrt (-(m.d - ev) / m.c * (-(m.d - ev) / m.c) + 1)) ^ 2 +
          (1 / Real.sqrt (-(m.d - ev) / m.c * (-(m.d - ev) / m.c) + 1)) ^ 2) =
        1 := by
      have hsum : (-(m.d - ev) / m.c /
            Real.sqrt (-(m.d - ev) / m.c * (-(m.d - ev) / m.c) + 1)) ^ 2 +
          (1 / Real.sqrt (-(m.d - ev) / m.c * (-(m.d - ev) / m.c) + 1)) ^ 2 = 1 := by
        rw [show (-(m.d - ev) / m.c /
              Real.sqrt (-(m.d - ev) / m.c * (-(m.d - ev) / m.c) + 1)) ^ 2 +
            (1 / Real.sqrt (-(m.d - ev) / m.c * (-(m.d - ev) / m.c) + 1)) ^ 2 =
            (-(m.d - ev) / m.c * (-(m.d - ev) / m.c) + 1) /
              Real.sqrt (-(m.d - ev) / m.c * (-(m.d - ev) / m.c) + 1) ^ 2 from by
          ring, hmagsq, div_self (ne_of_gt htpos)]
      rw [hsum, Real.sqrt_one]
    refine ⟨rfl, rfl, hunit, ?_⟩
    intro hH
    have hb0 : m.b = 0 := (hH (not_lt.mp h1)).1
    have ha0 : m.a - ev = 0 := ((hH (not_lt.mp h1)).2 (not_lt.mp h2)).1
    refine ⟨rfl, rfl, hunit, ?_, ?_⟩
    · rw [ha0, hb0]; ring
    · have hnum : m.c * (-(m.d - ev) / m.c) + (m.d - ev) = 0 := by
        field_simp
      rw [show m.c * (-(m.d - ev) / m.c /
            Real.sqrt (-(m.d - ev) / m.c * (-(m.d - ev) / m.c) + 1)) +
          (m.d - ev) * (1 / Real.sqrt (-(m.d - ev) / m.c * (-(m.d - ev) / m.c) + 1)) =
          (m.c * (-(m.d - ev) / m.c) + (m.d - ev)) /
            Real.sqrt (-(m.d - ev) / m.c * (-(m.d - ev) / m.c) + 1) from by ring,
        hnum, zero_div]
  · -- both rows vanish within tolerance: v = (1, 0); tested small: b, a−ev, c
    refine ⟨rfl, rfl, by norm_num, ?_⟩
    intro hH
    have hb0 : m.b = 0 := (hH (not_lt.mp h1)).1
    have hrest := (hH (not_lt.mp h1)).2 (not_lt.mp h2)
    have ha0 : m.a - ev = 0 := hrest.1
    have hc0 : m.c = 0 := hrest.2 (not_lt.mp h3)
    refine ⟨rfl, rfl, by norm_num, ?_, ?_⟩
    · rw [ha0, hb0]; ring
    · rw [hc0]; ring

/-- Counterexample for C4 as stated: for M = [[1, 1e-10], [0, 0]]
(disc = 1 ≥ 0, eigenvalues 1 and 0) the second returned eigenvector is
(0, 1), picked by the tolerance branch that treats b = 1e-10 as zero; it is
real and unit but (M − 0·I)v = (1e-10, 0) ≠ 0, so it is not an eigenvector. -/
theorem c4_counterexample :
    (0 : ℝ) ≤ discM (⟨1, 1e-10, 0, 0⟩ : Matrix2x2 ℝ) ∧
    (analyzeMatrix ⟨1, 1e-10, 0, 0⟩).eigenvalues.2 = ⟨0, 0⟩ ∧
    (analyzeMatrix ⟨1, 1e-10, 0, 0⟩).eigenvectors =
      some (getEigenvector ⟨1, 1e-10, 0, 0⟩ 1,
            getEigenvector ⟨1, 1e-10, 0, 0⟩ 0) ∧
    getEigenvector ⟨1, 1e-10, 0, 0⟩ 0 = ⟨⟨0, 0⟩, ⟨1, 0⟩⟩ ∧
    ¬ realUnitEigenvector ⟨1, 1e-10, 0, 0⟩ 0
        (getEigenvector ⟨1, 1e-10, 0, 0⟩ 0) := by
  have hdisc1 : discM (⟨1, 1e-10, 0, 0⟩ : Matrix2x2 ℝ) = 1 := by
    norm_num [discM, traceM, detM]
  have htr1 : traceM (⟨1, 1e-10, 0, 0⟩ : Matrix2x2 ℝ) = 1 := by
    norm_num [traceM]
  have hroot : Real.sqrt (discM (⟨1, 1e-10, 0, 0⟩ : Matrix2x2 ℝ)) = 1 := by
    rw [hdisc1, Real.sqrt_one]
  have hge : getEigenvector ⟨1, 1e-10, 0, 0⟩ 0 = ⟨⟨0, 0⟩, ⟨1, 0⟩⟩ := by
    simp only [getEigenvector]
    rw [if_neg, if_pos]
    · show |(1 : ℝ) - 0| > 1e-9
      rw [show |(1 : ℝ) - 0| = 1 by rw [abs_of_nonneg] <;> norm_num]
      norm_num
    · show ¬ |(1e-10 : ℝ)| > 1e-9
      rw [show |(1e-10 : ℝ)| = 1e-10 from abs_of_nonneg (by norm_num)]
      norm_num
  refine ⟨by rw [hdisc1]; norm_num, ?_, ?_, hge, ?_⟩
  · rw [(analyzeMatrix_eigenvalues_of_nonneg ⟨1, 1e-10, 0, 0⟩
      (by rw [hdisc1]; norm_num))]
    rw [hroot, htr1]
    norm_num
  · rw [analyzeMatrix_eigenvectors_of_nonneg ⟨1, 1e-10, 0, 0⟩
      (by rw [hdisc1]; norm_num)]
    rw [hroot, htr1]
    norm_num
  · intro hru
    rw [hge] at hru
    have hres := hru.2.2.2.1
    simp only at hres
    norm_num at hres

/-- Witness for C4 (amended): for the saddle [[1,0],[0,-1]] and its second
eigenvalue −1 all tolerance-tested entries are exactly zero, and the
returned eigenvector for −1 is a genuine real unit eigenvector. -/
theorem c4_amended_witness :
    (0 : ℝ) ≤ discM (⟨1, 0, 0, -1⟩ : Matrix2x2 ℝ) ∧
    (-1 : ℝ) = (traceM (⟨1, 0, 0, -1⟩ : Matrix2x2 ℝ) -
        Real.sqrt (discM (⟨1, 0, 0, -1⟩ : Matrix2x2 ℝ))) / 2 ∧
    realUnitEigenvector ⟨1, 0, 0, -1⟩ (-1) (getEigenvector ⟨1, 0, 0, -1⟩ (-1)) := by
  have hdisc4 : discM (⟨1, 0, 0, -1⟩ : Matrix2x2 ℝ) = 4 := by
    norm_num [discM, traceM, detM]
  have hroot : Real.sqrt (discM (⟨1, 0, 0, -1⟩ : Matrix2x2 ℝ)) = 2 := by
    rw [hdisc4, show (4 : ℝ) = 2 ^ 2 by norm_num,
      Real.sqrt_sq (by norm_num : (0 : ℝ) ≤ 2)]
  have hev : (-1 : ℝ) = (traceM (⟨1, 0, 0, -1⟩ : Matrix2x2 ℝ) -
      Real.sqrt (discM (⟨1, 0, 0, -1⟩ : Matrix2x2 ℝ))) / 2 := by
    rw [hroot, show traceM (⟨1, 0, 0, -1⟩ : Matrix2x2 ℝ) = 0 by norm_num [traceM]]
    norm_num
  have W := c4_amended ⟨1, 0, 0, -1⟩ (-1) (by rw [hdisc4]; norm_num)
    (Or.inr hev)
  have hno : ¬ |(⟨1, 0, 0, -1⟩ : Matrix2x2 ℝ).a - (-1)| ≤ 1e-9 := by
    rw [show |(⟨1, 0, 0, -1⟩ : Matrix2x2 ℝ).a - (-1)| = 2 by
      rw [show (⟨1, 0, 0, -1⟩ : Matrix2x2 ℝ).a - (-1) = 2 by norm_num]
      rw [abs_of_nonneg] <;> norm_num]
    norm_num
  exact ⟨by rw [hdisc4]; norm_num, hev,
    W.2.2.2.2 (fun _ => ⟨rfl, fun habs => absurd habs hno⟩)⟩
